import Mathlib

/-!
Verification of the LRU-K replacer from `src/buffer_pool/lru_k.rs`.

Modelling conventions for the shallow embedding:
* `VecDeque<usize>` becomes `List Nat` with the list head playing the role of
  the deque front (most recent timestamp); `push_front` is `List.cons`,
  `pop_back` is `List.dropLast`, `back()` is `List.getLast?`.
* `HashMap<usize, LRUKNode>` becomes an association list
  `List (Nat × LRUKNode)` kept in insertion order; reachable states have
  pairwise distinct keys.  `HashMap::remove` drops every entry with the given
  key, `get_mut` maps an update over the entry with the given key, and
  insertion of a fresh key appends at the end.
* Rust's `Iterator::min_by_key` returns the first element attaining the
  minimum key in iteration order; it is modelled by a left fold that replaces
  the accumulator only on a strictly smaller key.
* `usize` timestamps become `Nat` (`usize::MIN` is `0`); no claim exercises
  integer overflow.
-/

/-- Embeds the Rust struct `LRUKNode`: bounded access history (most recent
timestamp first), the history depth bound `k`, and the evictability flag. -/
structure LRUKNode where
  history : List Nat
  k : Nat
  evictable : Bool
deriving DecidableEq, Repr

namespace LRUKNode

/-- Embeds `LRUKNode::new_with_record`: a fresh node holding the single
timestamp of its first access, evictable by default. -/
def new_with_record (k timestamp : Nat) : LRUKNode :=
  { history := [timestamp], k := k, evictable := true }

/-- Embeds `LRUKNode::k_distance`: the ranking key
`(history.len(), history.back().copied().unwrap_or(usize::MIN))`. -/
def k_distance (n : LRUKNode) : Nat × Nat :=
  (n.history.length, (n.history.getLast?).getD 0)

/-- Embeds `LRUKNode::record_access`: if the history already holds `k`
entries pop the back entry, then push the new timestamp to the front. -/
def record_access (n : LRUKNode) (timestamp : Nat) : LRUKNode :=
  { n with history :=
      timestamp :: (if n.history.length = n.k then n.history.dropLast else n.history) }

end LRUKNode

/-- Embeds the Rust enum `AccessType`. -/
inductive AccessType where
  | Unknown
  | Lookup
  | Scan
  | Index
deriving DecidableEq, Repr

/-- Strict lexicographic order on ranking keys, as Rust's derived `Ord` on
`(usize, usize)` compares tuples. -/
def kdLt (a b : Nat × Nat) : Prop :=
  a.1 < b.1 ∨ (a.1 = b.1 ∧ a.2 < b.2)

instance (a b : Nat × Nat) : Decidable (kdLt a b) :=
  inferInstanceAs (Decidable (a.1 < b.1 ∨ (a.1 = b.1 ∧ a.2 < b.2)))

/-- The fold underlying `min_by_key`: scan the remaining entries, replacing
the current best only on a strictly smaller ranking key (so the first
minimum in iteration order wins, as in Rust). -/
def minFold (x : Nat × LRUKNode) (l : List (Nat × LRUKNode)) : Nat × LRUKNode :=
  l.foldl (fun acc y => if kdLt y.2.k_distance acc.2.k_distance then y else acc) x

/-- Embeds `.min_by_key(|(_, v)| v.k_distance())` over the iteration order of
the (filtered) frame mapping. -/
def minByKDistance : List (Nat × LRUKNode) → Option (Nat × LRUKNode)
  | [] => none
  | x :: xs => some (minFold x xs)

/-- Embeds the Rust struct `LRUKReplacer`: configured depth `k`, the frame
mapping, and the logical clock `timestamp`. -/
structure LRUKReplacer where
  k : Nat
  frame : List (Nat × LRUKNode)
  timestamp : Nat
deriving DecidableEq, Repr

namespace LRUKReplacer

/-- Embeds `LRUKReplacer::new`: the capacity hint is ignored, the mapping is
empty and the clock starts at `0`. -/
def new (_capacity k : Nat) : LRUKReplacer :=
  { k := k, frame := [], timestamp := 0 }

/-- Embeds `LRUKReplacer::evict`: filter to evictable frames, take the one
with minimum `k_distance`, remove it from the mapping and return its id;
on an empty evictable set fail with `Err(())` and leave the state alone.
The mutated state is returned as the second component. -/
def evict (r : LRUKReplacer) : Except Unit Nat × LRUKReplacer :=
  match minByKDistance (r.frame.filter (fun p => p.2.evictable)) with
  | none => (Except.error (), r)
  | some (i, _) => (Except.ok i, { r with frame := r.frame.filter (fun p => p.1 ≠ i) })

/-- Embeds `LRUKReplacer::record_access_of_type`: advance the clock, then
either create a fresh node for an untracked frame id or record the access on
the tracked node.  The access type is ignored, as in the Rust source. -/
def record_access_of_type (r : LRUKReplacer) (frame_id : Nat) (_ : AccessType) :
    LRUKReplacer :=
  match List.lookup frame_id r.frame with
  | none =>
      { r with timestamp := r.timestamp + 1,
               frame := r.frame ++ [(frame_id, LRUKNode.new_with_record r.k (r.timestamp + 1))] }
  | some _ =>
      { r with timestamp := r.timestamp + 1,
               frame := r.frame.map fun p =>
                 if p.1 = frame_id then (p.1, p.2.record_access (r.timestamp + 1)) else p }

/-- Embeds `LRUKReplacer::record_access`. -/
def record_access (r : LRUKReplacer) (frame_id : Nat) : LRUKReplacer :=
  r.record_access_of_type frame_id AccessType.Unknown

/-- Embeds `LRUKReplacer::set_evictable`: update the flag on a tracked frame,
no-op on an untracked id. -/
def set_evictable (r : LRUKReplacer) (frame_id : Nat) (evictable : Bool) : LRUKReplacer :=
  { r with frame := r.frame.map fun p =>
      if p.1 = frame_id then (p.1, { p.2 with evictable := evictable }) else p }

/-- Embeds `LRUKReplacer::remove`: drop the frame's entry unconditionally. -/
def remove (r : LRUKReplacer) (frame_id : Nat) : LRUKReplacer :=
  { r with frame := r.frame.filter (fun p => p.1 ≠ frame_id) }

/-- Embeds `LRUKReplacer::size`: the number of tracked evictable frames. -/
def size (r : LRUKReplacer) : Nat :=
  (r.frame.filter (fun p => p.2.evictable)).length

end LRUKReplacer

/-- States reachable from `LRUKReplacer::new _cap k` by the public API. -/
inductive Reachable (c k : Nat) : LRUKReplacer → Prop where
  | init : Reachable c k (LRUKReplacer.new c k)
  | record (r : LRUKReplacer) (f : Nat) (a : AccessType) :
      Reachable c k r → Reachable c k (r.record_access_of_type f a)
  | setEv (r : LRUKReplacer) (f : Nat) (b : Bool) :
      Reachable c k r → Reachable c k (r.set_evictable f b)
  | rem (r : LRUKReplacer) (f : Nat) :
      Reachable c k r → Reachable c k (r.remove f)
  | evicted (r : LRUKReplacer) :
      Reachable c k r → Reachable c k (r.evict).2

/-! ### The concrete scenario from §8 of the spec (and the Rust unit test) -/

/-- Frames 1–6 accessed once each on a fresh replacer with `k = 3`. -/
def demoAccessed : LRUKReplacer :=
  ((((((LRUKReplacer.new 10 3).record_access 1).record_access 2).record_access
      3).record_access 4).record_access 5).record_access 6

/-- Frames 1–5 marked evictable, frame 6 not. -/
def demoFlagged : LRUKReplacer :=
  (((((demoAccessed.set_evictable 1 true).set_evictable 2 true).set_evictable
      3 true).set_evictable 4 true).set_evictable 5 true).set_evictable 6 false

/-- A second access recorded for frame 1 (clock value 7). -/
def demoReaccessed : LRUKReplacer :=
  demoFlagged.record_access 1

/-- A concrete two-frame state: frame 1 has a partial history (one entry,
`k = 3`), frame 2 a full three-entry history; both evictable. -/
def twoFrameState : LRUKReplacer :=
  { k := 3,
    frame := [(1, { history := [5], k := 3, evictable := true }),
              (2, { history := [9, 8, 7], k := 3, evictable := true })],
    timestamp := 9 }

/-- The structural invariant maintained by every public operation: the
replacer's configured depth is fixed, and every tracked node carries a
non-empty history of length at most that depth, with the node's own copy of
`k` agreeing with the replacer's. -/
def StateOK (kk : Nat) (r : LRUKReplacer) : Prop :=
  r.k = kk ∧
  ∀ p ∈ r.frame, 0 < p.2.history.length ∧ p.2.history.length ≤ kk ∧ p.2.k = kk

/-! ### Helper lemmas about the ranking order and the fold for the minimum -/

lemma kdLt_trans {a b c : Nat × Nat} (h1 : kdLt a b) (h2 : kdLt b c) : kdLt a c := by
  rcases a with ⟨a1, a2⟩; rcases b with ⟨b1, b2⟩; rcases c with ⟨c1, c2⟩
  simp only [kdLt] at h1 h2 ⊢
  omega

lemma kdLt_of_not_of_lt {a b c : Nat × Nat} (h1 : ¬ kdLt b a) (h2 : kdLt b c) : kdLt a c := by
  rcases a with ⟨a1, a2⟩; rcases b with ⟨b1, b2⟩; rcases c with ⟨c1, c2⟩
  simp only [kdLt] at h1 h2 ⊢
  omega

lemma minFold_cons (x y : Nat × LRUKNode) (ys : List (Nat × LRUKNode)) :
    minFold x (y :: ys) =
      minFold (if kdLt y.2.k_distance x.2.k_distance then y else x) ys := rfl

lemma minFold_mem (x : Nat × LRUKNode) (l : List (Nat × LRUKNode)) :
    minFold x l ∈ x :: l := by
  induction l generalizing x with
  | nil => simp [minFold]
  | cons y ys ih =>
    rw [minFold_cons]
    by_cases h : kdLt y.2.k_distance x.2.k_distance
    · rw [if_pos h]
      rcases List.mem_cons.1 (ih y) with h1 | h1
      · rw [h1]; exact List.mem_cons.2 (Or.inr (List.mem_cons_self y ys))
      · exact List.mem_cons.2 (Or.inr (List.mem_cons.2 (Or.inr h1)))
    · rw [if_neg h]
      rcases List.mem_cons.1 (ih x) with h1 | h1
      · exact List.mem_cons.2 (Or.inl h1)
      · exact List.mem_cons.2 (Or.inr (List.mem_cons.2 (Or.inr h1)))

lemma minFold_min (x : Nat × LRUKNode) (l : List (Nat × LRUKNode)) :
    ∀ z ∈ x :: l, ¬ kdLt z.2.k_distance (minFold x l).2.k_distance := by
  induction l generalizing x with
  | nil =>
    intro z hz
    rcases List.mem_cons.1 hz with h1 | h1
    · subst h1; simp only [minFold, List.foldl_nil]
      rcases z.2.k_distance with ⟨u, v⟩
      simp only [kdLt]; omega
    · cases h1
  | cons y ys ih =>
    intro z hz
    rw [minFold_cons]
    by_cases h : kdLt y.2.k_distance x.2.k_distance
    · rw [if_pos h]
      rcases List.mem_cons.1 hz with h1 | h1
      · rw [h1]
        intro hc
        exact ih y y (List.mem_cons_self y ys) (kdLt_trans h hc)
      · rcases List.mem_cons.1 h1 with h2 | h2
        · rw [h2]; exact ih y y (List.mem_cons_self y ys)
        · exact ih y z (List.mem_cons.2 (Or.inr h2))
    · rw [if_neg h]
      rcases List.mem_cons.1 hz with h1 | h1
      · rw [h1]; exact ih x x (List.mem_cons_self x ys)
      · rcases List.mem_cons.1 h1 with h2 | h2
        · rw [h2]
          intro hc
          exact ih x x (List.mem_cons_self x ys) (kdLt_of_not_of_lt h hc)
        · exact ih x z (List.mem_cons.2 (Or.inr h2))

lemma minByKDistance_spec {l : List (Nat × LRUKNode)} {m : Nat × LRUKNode}
    (h : minByKDistance l = some m) :
    m ∈ l ∧ ∀ z ∈ l, ¬ kdLt z.2.k_distance m.2.k_distance := by
  cases l with
  | nil => cases h
  | cons x xs =>
    have hm : m = minFold x xs := by
      simpa [minByKDistance] using h.symm
    subst hm
    exact ⟨minFold_mem x xs, minFold_min x xs⟩

/-- Characterization of a successful `evict`: the returned id is a tracked
evictable frame of minimum ranking key, and the state update is exactly the
removal of its entry. -/
lemma evict_spec {r : LRUKReplacer} {p : Nat × LRUKNode}
    (hp : p ∈ r.frame) (hev : p.2.evictable = true) :
    ∃ i node, (i, node) ∈ r.frame ∧ node.evictable = true ∧
      (∀ q ∈ r.frame, q.2.evictable = true → ¬ kdLt q.2.k_distance node.k_distance) ∧
      r.evict = (Except.ok i, { r with frame := r.frame.filter (fun q => q.1 ≠ i) }) := by
  have hpf : p ∈ r.frame.filter (fun q => q.2.evictable) :=
    List.mem_filter.2 ⟨hp, hev⟩
  rcases hl : r.frame.filter (fun q => q.2.evictable) with _ | ⟨x, xs⟩
  · rw [hl] at hpf; cases hpf
  · have hsome : minByKDistance (r.frame.filter (fun q => q.2.evictable)) =
        some (minFold x xs) := by rw [hl]; rfl
    obtain ⟨hmem, hmin⟩ := minByKDistance_spec hsome
    rw [hl] at hmem hmin
    rcases hmf : minFold x xs with ⟨i, node⟩
    rw [hmf] at hmem hmin
    have hmem' : (i, node) ∈ r.frame ∧ node.evictable = true := by
      have := (List.mem_filter.1 (hl ▸ hmem))
      simpa using this
    refine ⟨i, node, hmem'.1, hmem'.2, ?_, ?_⟩
    · intro q hq hqe
      exact hmin q (hl ▸ List.mem_filter.2 ⟨hq, hqe⟩)
    · simp only [LRUKReplacer.evict, hsome, hmf]

/-! ### Lookup lemmas for the association-list frame mapping -/

lemma lookup_filter_self (i : Nat) (l : List (Nat × LRUKNode)) :
    List.lookup i (l.filter (fun q => q.1 ≠ i)) = none := by
  induction l with
  | nil => simp
  | cons x xs ih =>
    obtain ⟨u, v⟩ := x
    by_cases h : u = i
    · simp only [List.filter_cons]
      rw [if_neg (by simp [h])]
      exact ih
    · simp only [List.filter_cons]
      rw [if_pos (by simpa using h)]
      rw [List.lookup_cons]
      have : (i == u) = false := by simpa using fun e => h e.symm
      rw [this]
      exact ih

lemma lookup_filter_ne {i j : Nat} (hne : j ≠ i) (l : List (Nat × LRUKNode)) :
    List.lookup j (l.filter (fun q => q.1 ≠ i)) = List.lookup j l := by
  induction l with
  | nil => simp
  | cons x xs ih =>
    obtain ⟨u, v⟩ := x
    by_cases h : u = i
    · subst h
      simp only [List.filter_cons]
      rw [if_neg (by simp)]
      rw [List.lookup_cons]
      have : (j == u) = false := by simpa using hne
      rw [this]
      exact ih
    · simp only [List.filter_cons]
      rw [if_pos (by simpa using h)]
      rw [List.lookup_cons, List.lookup_cons]
      cases hb : (j == u) with
      | true => rfl
      | false => exact ih

lemma lookup_map_update (f : Nat) (g : LRUKNode → LRUKNode) (l : List (Nat × LRUKNode)) :
    List.lookup f (l.map fun p => if p.1 = f then (p.1, g p.2) else p)
      = (List.lookup f l).map g := by
  induction l with
  | nil => simp
  | cons x xs ih =>
    obtain ⟨u, v⟩ := x
    by_cases h : u = f
    · subst h
      have hmap : ((u, v) :: xs).map (fun p => if p.1 = u then (p.1, g p.2) else p)
          = (u, g v) :: xs.map (fun p => if p.1 = u then (p.1, g p.2) else p) := by
        simp
      rw [hmap, List.lookup_cons, List.lookup_cons]
      have hb : (u == u) = true := by simp
      rw [hb]
      rfl
    · simp only [List.map_cons, if_neg h]
      rw [List.lookup_cons, List.lookup_cons]
      have hb : (f == u) = false := by simpa using fun e => h e.symm
      rw [hb]
      exact ih

lemma lookup_map_update_ne {f j : Nat} (hne : j ≠ f) (g : LRUKNode → LRUKNode)
    (l : List (Nat × LRUKNode)) :
    List.lookup j (l.map fun p => if p.1 = f then (p.1, g p.2) else p)
      = List.lookup j l := by
  induction l with
  | nil => simp
  | cons x xs ih =>
    obtain ⟨u, v⟩ := x
    by_cases h : u = f
    · subst h
      have hmap : ((u, v) :: xs).map (fun p => if p.1 = u then (p.1, g p.2) else p)
          = (u, g v) :: xs.map (fun p => if p.1 = u then (p.1, g p.2) else p) := by
        simp
      rw [hmap, List.lookup_cons, List.lookup_cons]
      have hb : (j == u) = false := by simpa using hne
      rw [hb]
      exact ih
    · simp only [List.map_cons, if_neg h]
      rw [List.lookup_cons, List.lookup_cons]
      cases hb : (j == u) with
      | true => rfl
      | false => exact ih

lemma lookup_append_fresh {f : Nat} {l : List (Nat × LRUKNode)}
    (h : List.lookup f l = none) (x : LRUKNode) :
    List.lookup f (l ++ [(f, x)]) = some x := by
  induction l with
  | nil => simp
  | cons y ys ih =>
    obtain ⟨u, v⟩ := y
    rw [List.lookup_cons] at h
    rw [List.cons_append, List.lookup_cons]
    cases hb : (f == u) with
    | true => rw [hb] at h; cases h
    | false =>
      rw [hb] at h
      exact ih h

lemma keys_nodup_unique {l : List (Nat × LRUKNode)} (h : (l.map Prod.fst).Nodup)
    {i : Nat} {n1 n2 : LRUKNode} (h1 : (i, n1) ∈ l) (h2 : (i, n2) ∈ l) : n1 = n2 := by
  induction l with
  | nil => cases h1
  | cons x xs ih =>
    rw [List.map_cons, List.nodup_cons] at h
    rcases List.mem_cons.1 h1 with e1 | m1
    · rcases List.mem_cons.1 h2 with e2 | m2
      · exact congrArg Prod.snd (e1.trans e2.symm)
      · exact absurd (List.mem_map.2 ⟨(i, n2), m2, rfl⟩) (e1 ▸ h.1)
    · rcases List.mem_cons.1 h2 with e2 | m2
      · exact absurd (List.mem_map.2 ⟨(i, n1), m1, rfl⟩) (e2 ▸ h.1)
      · exact ih h.2 m1 m2

/-! ### The reachability invariant -/

lemma record_access_node_ok {kk : Nat} {n : LRUKNode} (ts : Nat)
    (h : 0 < n.history.length ∧ n.history.length ≤ kk ∧ n.k = kk) :
    0 < (n.record_access ts).history.length ∧
      (n.record_access ts).history.length ≤ kk ∧ (n.record_access ts).k = kk := by
  obtain ⟨h1, h2, h3⟩ := h
  by_cases he : n.history.length = n.k
  · refine ⟨by simp [LRUKNode.record_access], ?_, h3⟩
    simp only [LRUKNode.record_access, if_pos he, List.length_cons, List.length_dropLast]
    omega
  · refine ⟨by simp [LRUKNode.record_access], ?_, h3⟩
    simp only [LRUKNode.record_access, if_neg he, List.length_cons]
    omega

lemma reachable_state_ok {c kk : Nat} (hk : 1 ≤ kk) {r : LRUKReplacer}
    (h : Reachable c kk r) : StateOK kk r := by
  induction h with
  | init =>
    exact ⟨rfl, by intro p hp; cases hp⟩
  | record r0 f a _ ih =>
    obtain ⟨hkeq, hnodes⟩ := ih
    rcases hl : List.lookup f r0.frame with _ | n
    · constructor
      · simp [LRUKReplacer.record_access_of_type, hl, hkeq]
      · intro p hp
        simp only [LRUKReplacer.record_access_of_type, hl] at hp
        rcases List.mem_append.1 hp with h1 | h1
        · exact hnodes p h1
        · rcases List.mem_cons.1 h1 with h2 | h2
          · rw [h2]
            refine ⟨by simp [LRUKNode.new_with_record], ?_, hkeq⟩
            simpa [LRUKNode.new_with_record] using hk
          · cases h2
    · constructor
      · simp [LRUKReplacer.record_access_of_type, hl, hkeq]
      · intro p hp
        simp only [LRUKReplacer.record_access_of_type, hl] at hp
        rcases List.mem_map.1 hp with ⟨q, hq, hqp⟩
        by_cases hqf : q.1 = f
        · rw [if_pos hqf] at hqp
          rw [← hqp]
          exact record_access_node_ok (r0.timestamp + 1) (hnodes q hq)
        · rw [if_neg hqf] at hqp
          rw [← hqp]
          exact hnodes q hq
  | setEv r0 f b _ ih =>
    obtain ⟨hkeq, hnodes⟩ := ih
    refine ⟨hkeq, ?_⟩
    intro p hp
    rcases List.mem_map.1 hp with ⟨q, hq, hqp⟩
    by_cases hqf : q.1 = f
    · rw [if_pos hqf] at hqp
      rw [← hqp]
      exact hnodes q hq
    · rw [if_neg hqf] at hqp
      rw [← hqp]
      exact hnodes q hq
  | rem r0 f _ ih =>
    obtain ⟨hkeq, hnodes⟩ := ih
    refine ⟨hkeq, ?_⟩
    intro p hp
    exact hnodes p (List.mem_filter.1 hp).1
  | evicted r0 _ ih =>
    obtain ⟨hkeq, hnodes⟩ := ih
    rcases hm : minByKDistance (r0.frame.filter fun p => p.2.evictable) with _ | ⟨i, node⟩
    · constructor
      · simp [LRUKReplacer.evict, hm, hkeq]
      · intro p hp
        simp only [LRUKReplacer.evict, hm] at hp
        exact hnodes p hp
    · constructor
      · simp [LRUKReplacer.evict, hm, hkeq]
      · intro p hp
        simp only [LRUKReplacer.evict, hm] at hp
        exact hnodes p (List.mem_filter.1 hp).1

/-! ### Claims -/

/-- C1: whenever some tracked frame is evictable, `evict` succeeds and
returns the id of a tracked, evictable frame whose ranking key `k_distance`
is lexicographically minimal among all tracked evictable frames, and that
frame's entry is removed from the frame mapping. -/
theorem evict_picks_minimum (r : LRUKReplacer)
    (h : ∃ p ∈ r.frame, p.2.evictable = true) :
    ∃ i node, r.evict.1 = Except.ok i ∧ (i, node) ∈ r.frame ∧
      node.evictable = true ∧
      (∀ q ∈ r.frame, q.2.evictable = true → ¬ kdLt q.2.k_distance node.k_distance) ∧
      List.lookup i r.evict.2.frame = none := by
  obtain ⟨p, hp, hev⟩ := h
  obtain ⟨i, node, hmem, hnev, hmin, heq⟩ := evict_spec hp hev
  refine ⟨i, node, by rw [heq], hmem, hnev, hmin, ?_⟩
  rw [heq]
  exact lookup_filter_self i r.frame

theorem evict_picks_minimum_witness :
    ((LRUKReplacer.new 10 3).record_access 1).evict.1 = Except.ok 1 := by
  obtain ⟨i, node, h1, hmem, hnev, hmin, hlook⟩ :=
    evict_picks_minimum ((LRUKReplacer.new 10 3).record_access 1)
      ⟨(1, { history := [1], k := 3, evictable := true }), by decide, rfl⟩
  have hm : (i, node) ∈ [(1, ({ history := [1], k := 3, evictable := true } : LRUKNode))] :=
    hmem
  have hi : i = 1 := by
    rcases List.mem_cons.1 hm with e | e
    · exact congrArg Prod.fst e
    · cases e
  rw [hi] at h1
  exact h1

/-- C2: when no tracked frame is evictable (in particular when no frame is
tracked at all), `evict` fails with the `NoEvictableFrame` failure, modelled
as `Except.error ()`, and the whole replacer state — `k`, the frame mapping
with every history and flag, and the clock — is returned unchanged. -/
theorem evict_no_evictable_fails_pure (r : LRUKReplacer)
    (h : ∀ p ∈ r.frame, p.2.evictable = false) :
    r.evict = (Except.error (), r) := by
  have hf : r.frame.filter (fun p => p.2.evictable) = [] := by
    rw [List.filter_eq_nil_iff]
    intro p hp
    simp [h p hp]
  simp only [LRUKReplacer.evict, hf, minByKDistance]

theorem evict_no_evictable_fails_pure_witness :
    (((LRUKReplacer.new 10 3).record_access 1).set_evictable 1 false).evict =
      (Except.error (), ((LRUKReplacer.new 10 3).record_access 1).set_evictable 1 false) :=
  evict_no_evictable_fails_pure
    (((LRUKReplacer.new 10 3).record_access 1).set_evictable 1 false) (by decide)

/-- C3: if the mapping has pairwise distinct keys and tracks two evictable
frames `a` (with history shorter than the configured `k`) and `b` (with a
full history of length `k`), then `evict` never selects `b`: a partial
history beats a full history regardless of the stored timestamps. -/
theorem evict_prefers_partial_history (r : LRUKReplacer)
    (hkeys : (r.frame.map Prod.fst).Nodup)
    (ia ib : Nat) (a b : LRUKNode)
    (ha : (ia, a) ∈ r.frame) (hb : (ib, b) ∈ r.frame)
    (hae : a.evictable = true) (_hbe : b.evictable = true)
    (halen : a.history.length < r.k) (hblen : b.history.length = r.k) :
    ∃ i, r.evict.1 = Except.ok i ∧ i ≠ ib := by
  obtain ⟨i, node, hmem, hnev, hmin, heq⟩ := evict_spec ha hae
  refine ⟨i, by rw [heq], ?_⟩
  intro hcontra
  rw [hcontra] at hmem
  have hnode : node = b := keys_nodup_unique hkeys hmem hb
  apply hmin (ia, a) ha hae
  rw [hnode]
  left
  simp only [LRUKNode.k_distance]
  omega

theorem evict_prefers_partial_history_witness :
    twoFrameState.evict.1 = Except.ok 1 ∧ (1 : Nat) ≠ 2 := by
  obtain ⟨i, h1, h2⟩ :=
    evict_prefers_partial_history twoFrameState
      (by decide) 1 2
      { history := [5], k := 3, evictable := true }
      { history := [9, 8, 7], k := 3, evictable := true }
      (by decide) (by decide) rfl rfl (by decide) (by decide)
  have hr : twoFrameState.evict.1 = Except.ok 1 := rfl
  have hi : i = 1 := (Except.ok.inj (hr.symm.trans h1)).symm
  rw [hi] at h2
  exact ⟨hr, h2⟩

/-- C9: a successful `evict` returning frame `i` changes nothing but the
removal of `i`'s entry: the configured `k` and the clock are unchanged, `i`
is no longer tracked, and every other frame id maps to exactly the entry it
mapped to before. -/
theorem evict_removes_only_victim (r : LRUKReplacer) (i : Nat)
    (h : r.evict.1 = Except.ok i) :
    r.evict.2.k = r.k ∧ r.evict.2.timestamp = r.timestamp ∧
    List.lookup i r.evict.2.frame = none ∧
    ∀ j, j ≠ i → List.lookup j r.evict.2.frame = List.lookup j r.frame := by
  rcases hm : minByKDistance (r.frame.filter (fun p => p.2.evictable)) with _ | ⟨i', node⟩
  · rw [LRUKReplacer.evict, hm] at h
    cases h
  · rw [LRUKReplacer.evict, hm] at h ⊢
    have hi : i' = i := by cases h; rfl
    subst hi
    refine ⟨rfl, rfl, lookup_filter_self i' r.frame, ?_⟩
    intro j hj
    exact lookup_filter_ne hj r.frame

theorem evict_removes_only_victim_witness :
    demoReaccessed.evict.2.k = demoReaccessed.k ∧
    demoReaccessed.evict.2.timestamp = demoReaccessed.timestamp ∧
    List.lookup 2 demoReaccessed.evict.2.frame = none ∧
    List.lookup 1 demoReaccessed.evict.2.frame = List.lookup 1 demoReaccessed.frame := by
  obtain ⟨h1, h2, h3, h4⟩ := evict_removes_only_victim demoReaccessed 2 rfl
  exact ⟨h1, h2, h3, h4 1 (by decide)⟩

/-- C4: recording an access advances the clock by exactly 1 with every call
(and the clock starts at 0 at construction and is touched by no other
operation); an untracked frame id gets a fresh node whose history is the
single new clock value with `evictable = true`, while a tracked id has the
new clock value recorded onto its existing node per the §4.1 record rule. -/
theorem record_access_effects (c k : Nat) (r : LRUKReplacer) (f : Nat) (a : AccessType) :
    (LRUKReplacer.new c k).timestamp = 0 ∧
    (r.record_access_of_type f a).timestamp = r.timestamp + 1 ∧
    (r.record_access f).timestamp = r.timestamp + 1 ∧
    (r.set_evictable f true).timestamp = r.timestamp ∧
    (r.set_evictable f false).timestamp = r.timestamp ∧
    (r.remove f).timestamp = r.timestamp ∧
    r.evict.2.timestamp = r.timestamp ∧
    (List.lookup f r.frame = none →
      List.lookup f (r.record_access_of_type f a).frame =
        some { history := [r.timestamp + 1], k := r.k, evictable := true }) ∧
    (∀ n, List.lookup f r.frame = some n →
      List.lookup f (r.record_access_of_type f a).frame =
        some (n.record_access (r.timestamp + 1))) := by
  refine ⟨rfl, ?_, ?_, rfl, rfl, rfl, ?_, ?_, ?_⟩
  · rcases hl : List.lookup f r.frame with _ | n <;>
      simp [LRUKReplacer.record_access_of_type, hl]
  · rcases hl : List.lookup f r.frame with _ | n <;>
      simp [LRUKReplacer.record_access, LRUKReplacer.record_access_of_type, hl]
  · rcases hm : minByKDistance (r.frame.filter fun p => p.2.evictable) with _ | ⟨i, node⟩ <;>
      simp [LRUKReplacer.evict, hm]
  · intro h
    simp only [LRUKReplacer.record_access_of_type, h]
    exact lookup_append_fresh h _
  · intro n h
    simp only [LRUKReplacer.record_access_of_type, h]
    have hu := lookup_map_update f (fun v => v.record_access (r.timestamp + 1)) r.frame
    rw [h] at hu
    simpa using hu

theorem record_access_effects_witness :
    (LRUKReplacer.new 10 3).timestamp = 0 ∧
    ((LRUKReplacer.new 10 3).record_access_of_type 1 AccessType.Lookup).timestamp = 1 ∧
    List.lookup 1 ((LRUKReplacer.new 10 3).record_access_of_type 1 AccessType.Lookup).frame =
      some { history := [1], k := 3, evictable := true } ∧
    List.lookup 1
        (((LRUKReplacer.new 10 3).record_access 1).record_access_of_type 1 AccessType.Scan).frame =
      some (LRUKNode.record_access { history := [1], k := 3, evictable := true } 2) := by
  have h1 := record_access_effects 10 3 (LRUKReplacer.new 10 3) 1 AccessType.Lookup
  have h2 := record_access_effects 10 3 ((LRUKReplacer.new 10 3).record_access 1) 1
    AccessType.Scan
  refine ⟨h1.1, h1.2.1, h1.2.2.2.2.2.2.2.1 rfl, ?_⟩
  exact h2.2.2.2.2.2.2.2.2 { history := [1], k := 3, evictable := true } rfl

/-- C5: recording an access on a node whose history holds exactly `k`
entries (with `k` positive, as for any tracked frame) removes exactly the
oldest (back) entry and puts the new timestamp at the front, keeping the
length at `k`; on a node with fewer than `k` entries it puts the new
timestamp at the front and grows the length by 1, removing nothing. -/
theorem record_access_history_rule (n : LRUKNode) (ts : Nat) :
    (n.history.length = n.k → 0 < n.history.length →
      (n.record_access ts).history = ts :: n.history.dropLast ∧
      n.history = n.history.dropLast ++ [n.history.getLast?.getD 0] ∧
      (n.record_access ts).history.length = n.k) ∧
    (n.history.length < n.k →
      (n.record_access ts).history = ts :: n.history ∧
      (n.record_access ts).history.length = n.history.length + 1) := by
  constructor
  · intro h1 h2
    have hne : n.history ≠ [] := List.ne_nil_of_length_pos h2
    refine ⟨?_, ?_, ?_⟩
    · simp [LRUKNode.record_access, h1]
    · rw [List.getLast?_eq_getLast n.history hne]
      simp only [Option.getD_some]
      exact (List.dropLast_append_getLast hne).symm
    · simp only [LRUKNode.record_access, if_pos h1, List.length_cons,
        List.length_dropLast]
      omega
  · intro h
    have hne : n.history.length ≠ n.k := Nat.ne_of_lt h
    constructor
    · simp [LRUKNode.record_access, hne]
    · simp [LRUKNode.record_access, hne]

theorem record_access_history_rule_witness :
    (LRUKNode.record_access { history := [3, 2, 1], k := 3, evictable := true } 9).history
      = [9, 3, 2] ∧
    (LRUKNode.record_access { history := [5], k := 3, evictable := true } 9).history
      = [9, 5] := by
  have h1 := (record_access_history_rule
    { history := [3, 2, 1], k := 3, evictable := true } 9).1 rfl (by decide)
  have h2 := (record_access_history_rule
    { history := [5], k := 3, evictable := true } 9).2 (by decide)
  exact ⟨by rw [h1.1]; rfl, by rw [h2.1]⟩

/-- C7: `record_access_of_type` ignores the access kind entirely, so for
every replacer state, frame id and access kind it produces exactly the state
`record_access` produces; no observable behaviour can depend on the tag. -/
theorem record_access_type_irrelevant (r : LRUKReplacer) (f : Nat) (a : AccessType) :
    r.record_access_of_type f a = r.record_access f := rfl

/-- C6: for a replacer constructed with depth `k ≥ 1`, in every state
reachable through the public operations each tracked frame's history length
satisfies `0 < len ≤ k`. -/
theorem reachable_history_bounds (c k : Nat) (r : LRUKReplacer)
    (hk : 1 ≤ k) (h : Reachable c k r) :
    ∀ p ∈ r.frame, 0 < p.2.history.length ∧ p.2.history.length ≤ k := by
  obtain ⟨-, hnodes⟩ := reachable_state_ok hk h
  intro p hp
  exact ⟨(hnodes p hp).1, (hnodes p hp).2.1⟩

theorem reachable_history_bounds_witness :
    0 < ({ history := [1], k := 3, evictable := true } : LRUKNode).history.length ∧
    ({ history := [1], k := 3, evictable := true } : LRUKNode).history.length ≤ 3 :=
  reachable_history_bounds 10 3 ((LRUKReplacer.new 10 3).record_access 1) (by decide)
    (Reachable.record (LRUKReplacer.new 10 3) 1 AccessType.Unknown Reachable.init)
    (1, { history := [1], k := 3, evictable := true }) (by decide)

/-- C10: for a replacer constructed with depth `k ≥ 1`, in every reachable
state each tracked node's history is non-empty, so the second component of
`k_distance` is the genuine back (oldest retained) timestamp and the
`usize::MIN` fallback of the Rust `unwrap_or` is never exercised. -/
theorem k_distance_no_fallback (c k : Nat) (r : LRUKReplacer)
    (hk : 1 ≤ k) (h : Reachable c k r) :
    ∀ p ∈ r.frame, p.2.history ≠ [] ∧
      ∃ t, p.2.history.getLast? = some t ∧
        p.2.k_distance = (p.2.history.length, t) := by
  obtain ⟨-, hnodes⟩ := reachable_state_ok hk h
  intro p hp
  have hne : p.2.history ≠ [] := List.ne_nil_of_length_pos (hnodes p hp).1
  refine ⟨hne, p.2.history.getLast hne, List.getLast?_eq_getLast _ hne, ?_⟩
  simp only [LRUKNode.k_distance, List.getLast?_eq_getLast _ hne, Option.getD_some]

theorem k_distance_no_fallback_witness :
    ({ history := [1], k := 3, evictable := true } : LRUKNode).k_distance = (1, 1) := by
  obtain ⟨hne, t, ht1, ht2⟩ :=
    k_distance_no_fallback 10 3 ((LRUKReplacer.new 10 3).record_access 1) (by decide)
      (Reachable.record (LRUKReplacer.new 10 3) 1 AccessType.Unknown Reachable.init)
      (1, { history := [1], k := 3, evictable := true }) (by decide)
  have ht : t = 1 := Option.some.inj (ht1.symm.trans rfl)
  rw [ht] at ht2
  simpa using ht2

/-- C8: on a fresh replacer with `k = 3`, after one access each to frames
1–6 (clocks 1..6) and marking frames 1–5 evictable but not frame 6, `size`
is 5; after a second access to frame 1 (clock 7), three evictions return
frames 2, 3, 4 in order and `size` is then 2. -/
theorem demo_scenario :
    demoFlagged.size = 5 ∧
    demoReaccessed.evict.1 = Except.ok 2 ∧
    demoReaccessed.evict.2.evict.1 = Except.ok 3 ∧
    demoReaccessed.evict.2.evict.2.evict.1 = Except.ok 4 ∧
    demoReaccessed.evict.2.evict.2.evict.2.size = 2 := by
  refine ⟨rfl, rfl, rfl, rfl, rfl⟩
